import Mathlib

/-!
# Verification of merge_safetensors.py

A shallow embedding of the shard-resolution and streaming-merge engine of
`src/merge_safetensors.py`, together with proofs of the specification's claims
about it.

Modelling conventions:

* A Python `dict` is modelled as an association list in insertion order
  (Python dicts preserve insertion order and have unique keys).
* The tensor type is an opaque type parameter `T`; the engine never inspects
  tensor values, it only moves them.
* The safetensors codec is modelled by the narrow interface the script uses:
  a map `fs : String → Option (Shard T)` from paths to openable shards
  (`none` models `safe_open` raising, i.e. a missing/unreadable shard file);
  a `Shard` has a key list (`f.keys()`) and a partial read function
  `get : String → Option T` (`none` models `f.get_tensor` raising).
* `sys.exit(1)` inside `load_tensors` is modelled by `Except.error ()`: the
  accumulated tensors are discarded and no result is produced.
* Log output relevant to the claims (the per-shard progress line, the
  missing-key warning, the failed-read warning) is modelled by an explicit
  event list; other log lines are ignored.
* Python string comparison (used by `sorted`) is lexicographic comparison of
  code points; `strLe` below implements exactly that on `String.data`.
* `os.path.abspath ∘ os.path.join` is an arbitrary deterministic resolution
  function `resolve : String → String` (the claims do not depend on its
  internal structure, only on the fact that each relative shard name is
  resolved to one absolute path).
-/

namespace MergeSafetensors

variable {T : Type}

/-- A weight map, as the `"weight_map"` object of the index JSON: tensor name
to shard file name, in insertion order, with unique keys. -/
abbrev WeightMap := List (String × String)

/-- A shard plan, as built by `group_keys_by_shard`: absolute shard path to
the list of tensor names requested from that shard, in insertion order. -/
abbrev ShardPlan := List (String × List String)

/-- The codec view of one opened shard file: the set of keys actually present
(`f.keys()`) and the per-tensor read (`f.get_tensor`, `none` = raises). -/
structure Shard (T : Type) where
  keys : List String
  get : String → Option T

/-- Log events of the loader that the claims talk about. -/
inductive Event where
  /-- The per-shard progress line emitted when the loader turns to a shard
  (line 118 of the source, before `safe_open`). -/
  | openShard (path : String)
  /-- Warning: a key from the index is not in the shard (line 125). -/
  | missingKey (path key : String)
  /-- Warning: `get_tensor` failed for a present key (line 133). -/
  | readFail (path key : String)
deriving DecidableEq, Repr

/-- Keys of an association list (`dict.keys()`). -/
def keysOf (m : List (String × T)) : List String :=
  m.map Prod.fst

/-- Association-list lookup: `m[k]` as an `Option`. -/
def alookup : List (String × T) → String → Option T
  | [], _ => none
  | (k, v) :: rest, q => if k = q then some v else alookup rest q

/-- Python dict assignment `m[k] = v`: overwrite in place if the key exists,
otherwise append at the end (insertion order). -/
def dinsert : List (String × T) → String → T → List (String × T)
  | [], k, v => [(k, v)]
  | (k', v') :: rest, k, v =>
    if k' = k then (k', v) :: rest else (k', v') :: dinsert rest k v

/-- One step of `group_keys_by_shard`'s loop body: append `key` to the entry
of `path` in the plan, creating the entry if absent (source lines 97-100). -/
def addKey : ShardPlan → String → String → ShardPlan
  | [], path, key => [(path, [key])]
  | (p, ks) :: rest, path, key =>
    if p = path then (p, ks ++ [key]) :: rest
    else (p, ks) :: addKey rest path key

/-- The function `group_keys_by_shard(weight_map, index_dir)` (source lines 92-103):
invert name → shard-file into shard-path → [names].  `resolve` stands for
`os.path.abspath(os.path.join(index_dir, ·))`. -/
def group_keys_by_shard (weight_map : WeightMap) (resolve : String → String) :
    ShardPlan :=
  weight_map.foldl (fun plan kv => addKey plan (resolve kv.2) kv.1) []

/-- Code-point comparison of strings as character lists (Python `<=` on
`str`, which `sorted` uses). -/
def strLeB : List Char → List Char → Bool
  | [], _ => true
  | _ :: _, [] => false
  | a :: as, b :: bs =>
    if a.val.toNat < b.val.toNat then true
    else if b.val.toNat < a.val.toNat then false
    else strLeB as bs

/-- Python string `<=`. -/
def strLe (s t : String) : Bool := strLeB s.data t.data

/-- Insert into a sorted list (helper of `sortStrings`). -/
def insertSorted (a : String) : List String → List String
  | [] => [a]
  | b :: l => if strLe a b then a :: b :: l else b :: insertSorted a l

/-- Python `sorted` on a list of strings (insertion sort; Python's sort is
stable, and the claims only use that the result is ordered and a
permutation). -/
def sortStrings : List String → List String
  | [] => []
  | a :: l => insertSorted a (sortStrings l)

/-- The sort `sorted(shards_to_load.keys())` (source line 113). -/
def sortedShardFiles (plan : ShardPlan) : List String :=
  sortStrings (plan.map Prod.fst)

/-- The lookup `shards_to_load[shard_file]` (source line 116): dict lookup of the name
list of a shard path.  The default `[]` is never reached for paths that are
keys of the plan. -/
def findNames (plan : ShardPlan) (p : String) : List String :=
  match plan.find? (fun e => decide (e.1 = p)) with
  | some e => e.2
  | none => []

/-- The per-shard loop of `load_tensors` (source lines 123-133): for each
requested key, skip with a warning if absent from the shard or unreadable,
otherwise insert into the merged dict. -/
def processShard (sh : Shard T) (path : String) :
    List String → List (String × T) × List Event → List (String × T) × List Event
  | [], st => st
  | k :: ks, (m, log) =>
    if k ∈ sh.keys then
      match sh.get k with
      | some t => processShard sh path ks (dinsert m k t, log)
      | none => processShard sh path ks (m, log ++ [Event.readFail path k])
    else processShard sh path ks (m, log ++ [Event.missingKey path k])

/-- The shard loop of `load_tensors` (source lines 115-140) over an explicit
list of (path, requested names) entries: report progress, open the shard
(fatal `sys.exit(1)` if that fails, discarding everything), then run the
per-shard loop. -/
def processPlanList (fs : String → Option (Shard T)) :
    List (String × List String) → List (String × T) × List Event →
    Except Unit (List (String × T) × List Event)
  | [], st => Except.ok st
  | (p, ks) :: rest, (m, log) =>
    match fs p with
    | none => Except.error ()
    | some sh =>
      processPlanList fs rest (processShard sh p ks (m, log ++ [Event.openShard p]))

/-- The function `load_tensors(shards_to_load)` (source lines 106-144): iterate the plan's
shard paths in sorted order, starting from an empty merged dict. -/
def load_tensors (fs : String → Option (Shard T)) (plan : ShardPlan) :
    Except Unit (List (String × T) × List Event) :=
  processPlanList fs ((sortedShardFiles plan).map (fun p => (p, findNames plan p))) ([], [])

/-- Python `str.strip()`'s default whitespace characters: the code points
CPython's `str.isspace()` accepts — U+0009-U+000D, U+001C-U+001F, U+0020,
U+0085, U+00A0, U+1680, U+2000-U+200A, U+2028, U+2029, U+202F, U+205F and
U+3000. -/
def isPySpace (c : Char) : Bool :=
  let n := c.val.toNat
  decide ((9 ≤ n ∧ n ≤ 13) ∨ (28 ≤ n ∧ n ≤ 31) ∨ n = 32 ∨ n = 133 ∨ n = 160 ∨
    n = 5760 ∨ (8192 ≤ n ∧ n ≤ 8202) ∨ n = 8232 ∨ n = 8233 ∨ n = 8239 ∨
    n = 8287 ∨ n = 12288)

/-- Python `str.strip()`: drop leading and trailing whitespace. -/
def pystrip (s : String) : String :=
  String.mk (((s.data.dropWhile isPySpace).reverse.dropWhile isPySpace).reverse)

/-- Python `str.lower()` (the script only compares against the ASCII suffix
".safetensors", for which per-character lowercasing is exact). -/
def lowerStr (s : String) : String :=
  String.mk (s.data.map Char.toLower)

/-- Python `str.endswith(suf)`. -/
def strEndsWith (s suf : String) : Bool :=
  decide (s.data.reverse.take suf.data.length = suf.data.reverse)

/-- The extension-normalization step of `get_output_filename` (source lines
170-172): append ".safetensors" unless the lowercased name already ends in
it. -/
def ensureSafetensors (name : String) : String :=
  if strEndsWith (lowerStr name) ".safetensors" then name else name ++ ".safetensors"

/-- Outcome of the interactive `input()` call in `get_output_filename`. -/
inductive PromptOutcome where
  /-- The user entered a line (possibly empty or all-whitespace). -/
  | entered (s : String)
  /-- An `EOFError`: piped input / Ctrl+D. -/
  | eofInput
  /-- A `KeyboardInterrupt`: Ctrl+C. -/
  | interrupted
deriving DecidableEq, Repr

/-- The prompt branch of `get_output_filename` (source lines 154-166):
strip the input, fall back to the default on blank input or EOF, and
`sys.exit(130)` on a user interrupt. -/
def promptResult : PromptOutcome → Except Nat String
  | PromptOutcome.entered s =>
    let t := pystrip s
    Except.ok (if t = "" then "model-merged.safetensors" else t)
  | PromptOutcome.eofInput => Except.ok "model-merged.safetensors"
  | PromptOutcome.interrupted => Except.error 130

/-- The function `get_output_filename(output_arg)` (source lines 147-174).  `none` models
an absent `-o` flag; Python's truthiness test `if output_arg:` also sends an
empty explicit argument to the prompt.  The error carries the exit code. -/
def get_output_filename (outputArg : Option String) (prompt : PromptOutcome) :
    Except Nat String :=
  let base : Except Nat String :=
    match outputArg with
    | some o => if o = "" then promptResult prompt else Except.ok o
    | none => promptResult prompt
  Except.map ensureSafetensors base

/-- The function `load_index` (source lines 69-89), restricted to the part the claims use:
the parsed JSON either lacks the `"weight_map"` field (`none`, fatal
`sys.exit(1)`) or has one, which is returned whole — its emptiness is never
examined.  File-system and JSON-syntax failures are external I/O outside the
embedding. -/
def load_index (doc : Option WeightMap) : Except Unit WeightMap :=
  match doc with
  | none => Except.error ()
  | some wm => Except.ok wm

/-- How a run of `main` ends, from the point where the shard plan exists. -/
inductive RunOutcome (T : Type) where
  /-- The write `save_merged_file` is reached: the merged tensors are written to the
  resolved absolute output path. -/
  | wrote (path : String) (tensors : List (String × T))
  /-- An exit `sys.exit(code)` before any write. -/
  | exited (code : Nat)
deriving DecidableEq

/-- The tail of `main` (source lines 289-313): load tensors, exit 1 if the
merged dict is empty, resolve the output filename (`toAbs` models
`os.path.abspath`), warn — advisory only — when the output path collides
with a planned shard path, then write.  The returned `Bool` is whether the
collision warning was emitted.  Directory creation (line 303) is an external
file-system effect and is not modelled. -/
def mainAfterPlan (fs : String → Option (Shard T)) (plan : ShardPlan)
    (outputArg : Option String) (prompt : PromptOutcome)
    (toAbs : String → String) : RunOutcome T × Bool :=
  match load_tensors fs plan with
  | Except.error _ => (RunOutcome.exited 1, false)
  | Except.ok (m, _log) =>
    if m.isEmpty then (RunOutcome.exited 1, false)
    else
      match get_output_filename outputArg prompt with
      | Except.error c => (RunOutcome.exited c, false)
      | Except.ok name =>
        let outAbs := toAbs name
        (RunOutcome.wrote outAbs m, plan.any (fun e => decide (e.1 = outAbs)))

/-- The open-progress subsequence of a log: which shards the loader turned
to, in order. -/
def opensOf (log : List Event) : List String :=
  log.filterMap (fun e =>
    match e with
    | Event.openShard p => some p
    | _ => none)

/-- All shards of a plan-entry list open, every requested name is present in
its shard, and every per-tensor read succeeds: the success case of loading. -/
def PlanSucceeds (fs : String → Option (Shard T)) (l : List (String × List String)) :
    Prop :=
  ∀ e ∈ l, ∃ sh, fs e.1 = some sh ∧ ∀ k ∈ e.2, k ∈ sh.keys ∧ (sh.get k).isSome

/-- Forget the log and view a loader result through dict lookup: the
name → tensor mapping it denotes. -/
def mergedView (r : Except Unit (List (String × T) × List Event)) :
    Except Unit (String → Option T) :=
  r.map (fun st k => alookup st.1 k)


/-- All tensor names requested by a plan, shard by shard, concatenated. -/
def joinNames (plan : ShardPlan) : List String :=
  (plan.map Prod.snd).flatten

/-- The entry list `load_tensors` actually iterates: the sorted shard paths,
each paired with its requested names. -/
def planEntries (plan : ShardPlan) : List (String × List String) :=
  (sortedShardFiles plan).map (fun p => (p, findNames plan p))

/-- Left-biased choice on options. -/
def optOr : Option T → Option T → Option T
  | some v, _ => some v
  | none, x => x

/-- What one plan entry would contribute for name `q`, if anything. -/
def hitVal (fs : String → Option (Shard T)) (e : String × List String) (q : String) :
    Option T :=
  match fs e.1 with
  | none => none
  | some sh => if q ∈ sh.keys then sh.get q else none

/-- The value a loader run assigns to name `q`: the contribution of the
first (and, without cross-shard collisions, only) entry requesting `q`. -/
def planHit (fs : String → Option (Shard T)) (l : List (String × List String))
    (q : String) : Option T :=
  match l.find? (fun e => decide (q ∈ e.2)) with
  | some e => hitVal fs e q
  | none => none

/-! ## Concrete instances (the scenario of spec section 8) -/

/-- The spec's example index: `{"a": "s1", "b": "s1", "c": "s2"}`. -/
def wmEx : WeightMap := [("a", "s1"), ("b", "s1"), ("c", "s2")]

/-- Path resolution relative to an index directory `A`. -/
def resolveEx : String → String := fun s => "A/" ++ s

/-- Shard `s1`, holding tensors `a` and `b`. -/
def shEx1 : Shard Nat :=
  ⟨["a", "b"], fun k => if k = "a" then some 1 else if k = "b" then some 2 else none⟩

/-- Shard `s2`, holding tensor `c`. -/
def shEx2 : Shard Nat :=
  ⟨["c"], fun k => if k = "c" then some 3 else none⟩

/-- The codec serving the two example shards. -/
def fsEx : String → Option (Shard Nat) := fun p =>
  if p = "A/s1" then some shEx1 else if p = "A/s2" then some shEx2 else none

/-- The example shard plan the planner produces from `wmEx`. -/
def planEx : ShardPlan := [("A/s1", ["a", "b"]), ("A/s2", ["c"])]

/-- The example plan in the reverse order. -/
def planExRev : List (String × List String) := [("A/s2", ["c"]), ("A/s1", ["a", "b"])]

/-- A codec with no openable shard at all. -/
def fsNone : String → Option (Shard Nat) := fun _ => none

/-- A codec whose only shard is empty: every requested name is missing. -/
def fsEmpty : String → Option (Shard Nat) := fun _ => some ⟨[], fun _ => none⟩

/-- A shard that lists key `b` but cannot read it. -/
def shBad : Shard Nat := ⟨["a", "b"], fun k => if k = "a" then some 1 else none⟩

/-- A one-shard plan whose shard path looks like an output filename. -/
def planC8 : ShardPlan := [("A/s1.safetensors", ["a"])]

/-- The codec serving that one shard. -/
def fsC8 : String → Option (Shard Nat) := fun p =>
  if p = "A/s1.safetensors" then some shEx1 else none


end MergeSafetensors

namespace MergeSafetensors

/-! ## Order lemmas for the string comparison and the sort -/

theorem strLeB_cons_iff (a b : Char) (as bs : List Char) :
    strLeB (a :: as) (b :: bs) = true ↔
      a.val.toNat < b.val.toNat ∨ (a.val.toNat = b.val.toNat ∧ strLeB as bs = true) := by
  rcases Nat.lt_trichotomy a.val.toNat b.val.toNat with h | h | h
  · simp [strLeB, h]
  · simp [strLeB, h, Nat.lt_irrefl]
  · simp [strLeB, Nat.lt_asymm h, h, Nat.ne_of_gt h]

theorem strLeB_total : ∀ xs ys, strLeB xs ys = true ∨ strLeB ys xs = true := by
  intro xs
  induction xs with
  | nil => intro ys; left; rfl
  | cons a as ih =>
    intro ys
    cases ys with
    | nil => right; rfl
    | cons b bs =>
      rw [strLeB_cons_iff, strLeB_cons_iff]
      rcases Nat.lt_trichotomy a.val.toNat b.val.toNat with h | h | h
      · left; left; exact h
      · rcases ih bs with h' | h'
        · left; right; exact ⟨h, h'⟩
        · right; right; exact ⟨h.symm, h'⟩
      · right; left; exact h

theorem strLeB_trans : ∀ xs ys zs, strLeB xs ys = true → strLeB ys zs = true →
    strLeB xs zs = true := by
  intro xs
  induction xs with
  | nil => intro ys zs _ _; rfl
  | cons a as ih =>
    intro ys zs h₁ h₂
    cases ys with
    | nil => simp [strLeB] at h₁
    | cons b bs =>
      cases zs with
      | nil => simp [strLeB] at h₂
      | cons c cs =>
        rw [strLeB_cons_iff] at h₁ h₂ ⊢
        rcases h₁ with h₁ | ⟨e₁, r₁⟩
        · rcases h₂ with h₂ | ⟨e₂, r₂⟩
          · left; omega
          · left; omega
        · rcases h₂ with h₂ | ⟨e₂, r₂⟩
          · left; omega
          · right; exact ⟨by omega, ih bs cs r₁ r₂⟩

theorem strLe_total (s t : String) : strLe s t = true ∨ strLe t s = true :=
  strLeB_total s.data t.data

theorem strLe_trans {s t u : String} (h₁ : strLe s t = true) (h₂ : strLe t u = true) :
    strLe s u = true :=
  strLeB_trans s.data t.data u.data h₁ h₂

theorem insertSorted_perm (a : String) (l : List String) :
    List.Perm (insertSorted a l) (a :: l) := by
  induction l with
  | nil => exact List.Perm.refl _
  | cons b l ih =>
    by_cases h : strLe a b = true
    · simp [insertSorted, h]
    · simp only [insertSorted, h, if_false]
      exact ((ih.cons b).trans (List.Perm.swap a b l))

theorem sortStrings_perm (l : List String) : List.Perm (sortStrings l) l := by
  induction l with
  | nil => exact List.Perm.refl _
  | cons a l ih =>
    exact (insertSorted_perm a (sortStrings l)).trans (ih.cons a)

theorem insertSorted_sorted (a : String) (l : List String)
    (h : List.Pairwise (fun x y => strLe x y = true) l) :
    List.Pairwise (fun x y => strLe x y = true) (insertSorted a l) := by
  induction l with
  | nil => simp [insertSorted]
  | cons b l ih =>
    rcases List.pairwise_cons.mp h with ⟨hb, hl⟩
    by_cases hab : strLe a b = true
    · simp only [insertSorted, hab, if_true]
      refine List.pairwise_cons.mpr ⟨?_, h⟩
      intro c hc
      rcases List.mem_cons.mp hc with h1 | h1
      · rw [h1]; exact hab
      · exact strLe_trans hab (hb _ h1)
    · simp only [insertSorted, hab, if_false]
      refine List.pairwise_cons.mpr ⟨?_, ih hl⟩
      intro c hc
      have hba : strLe b a = true := (strLeB_total a.data b.data).resolve_left hab
      rcases List.mem_cons.mp ((insertSorted_perm a l).mem_iff.mp hc) with h1 | h1
      · rw [h1]; exact hba
      · exact hb _ h1

theorem sortStrings_sorted (l : List String) :
    List.Pairwise (fun x y => strLe x y = true) (sortStrings l) := by
  induction l with
  | nil => exact List.Pairwise.nil
  | cons a l ih => exact insertSorted_sorted a (sortStrings l) ih

end MergeSafetensors

namespace MergeSafetensors

/-! ## Shard-planner lemmas -/


theorem joinNames_nil : joinNames [] = [] := rfl

theorem joinNames_cons (e : String × List String) (plan : ShardPlan) :
    joinNames (e :: plan) = e.2 ++ joinNames plan := by
  simp [joinNames]

theorem mem_joinNames {plan : ShardPlan} {k : String} :
    k ∈ joinNames plan ↔ ∃ e ∈ plan, k ∈ e.2 := by
  simp only [joinNames, List.mem_flatten, List.mem_map]
  constructor
  · rintro ⟨l, ⟨e, he, rfl⟩, hk⟩
    exact ⟨e, he, hk⟩
  · rintro ⟨e, he, hk⟩
    exact ⟨e.2, ⟨e, he, rfl⟩, hk⟩

theorem addKey_joinNames_perm (plan : ShardPlan) (path key : String) :
    List.Perm (joinNames (addKey plan path key)) (key :: joinNames plan) := by
  induction plan with
  | nil => simp [addKey, joinNames]
  | cons e plan ih =>
    rcases e with ⟨p, ks⟩
    by_cases h : p = path
    · simp only [addKey, h, if_true, joinNames_cons]
      rw [List.append_assoc]
      exact List.perm_middle
    · simp only [addKey, h, if_false, joinNames_cons]
      exact ((ih.append_left ks).trans List.perm_middle)

theorem foldl_addKey_joinNames_perm (wm : WeightMap) (resolve : String → String) :
    ∀ plan : ShardPlan,
      List.Perm (joinNames (wm.foldl (fun pl kv => addKey pl (resolve kv.2) kv.1) plan))
        (wm.map Prod.fst ++ joinNames plan) := by
  induction wm with
  | nil => intro plan; simp
  | cons kv wm ih =>
    intro plan
    simp only [List.foldl_cons, List.map_cons]
    refine (ih (addKey plan (resolve kv.2) kv.1)).trans ?_
    refine ((addKey_joinNames_perm plan (resolve kv.2) kv.1).append_left _).trans ?_
    exact List.perm_middle

/-- The names requested by the plan are, up to order, exactly the keys of the
weight map; holds for any weight map, no uniqueness needed. -/
theorem group_joinNames_perm (wm : WeightMap) (resolve : String → String) :
    List.Perm (joinNames (group_keys_by_shard wm resolve)) (wm.map Prod.fst) := by
  have h := foldl_addKey_joinNames_perm wm resolve []
  simpa [group_keys_by_shard, joinNames] using h

theorem addKey_map_fst (plan : ShardPlan) (path key : String) :
    (addKey plan path key).map Prod.fst =
      if path ∈ plan.map Prod.fst then plan.map Prod.fst
      else plan.map Prod.fst ++ [path] := by
  induction plan with
  | nil => simp [addKey]
  | cons e plan ih =>
    rcases e with ⟨p, ks⟩
    by_cases h : p = path
    · simp [addKey, h]
    · have h' : path ≠ p := fun hh => h hh.symm
      simp [addKey, h, ih, h']
      by_cases hmem : path ∈ plan.map Prod.fst <;> simp [hmem, h']

theorem addKey_map_fst_nodup {plan : ShardPlan} (path key : String)
    (h : (plan.map Prod.fst).Nodup) : ((addKey plan path key).map Prod.fst).Nodup := by
  rw [addKey_map_fst]
  by_cases hmem : path ∈ plan.map Prod.fst
  · simpa [hmem] using h
  · simp only [hmem, if_false]
    rw [List.nodup_append]
    exact ⟨h, List.nodup_singleton path, by simpa using hmem⟩

/-- The plan never lists the same shard path twice (the plan is a Python
dict). -/
theorem group_map_fst_nodup (wm : WeightMap) (resolve : String → String) :
    ((group_keys_by_shard wm resolve).map Prod.fst).Nodup := by
  suffices h : ∀ plan : ShardPlan, (plan.map Prod.fst).Nodup →
      ((wm.foldl (fun pl kv => addKey pl (resolve kv.2) kv.1) plan).map Prod.fst).Nodup by
    exact h [] (by simp)
  induction wm with
  | nil => intro plan hp; simpa using hp
  | cons kv wm ih =>
    intro plan hp
    exact ih _ (addKey_map_fst_nodup _ _ hp)

/-- If the concatenation of all name lists has no duplicates, a name
determines its plan entry. -/
theorem entry_unique_of_nodup_joinNames :
    ∀ plan : ShardPlan, (joinNames plan).Nodup →
      ∀ (e e' : String × List String) (k : String),
        e ∈ plan → e' ∈ plan → k ∈ e.2 → k ∈ e'.2 → e = e' := by
  intro plan
  induction plan with
  | nil => intro _ e e' k he _ _ _; cases he
  | cons x plan ih =>
    intro h e e' k he he' hk hk'
    rw [joinNames_cons, List.nodup_append] at h
    obtain ⟨-, hrest, hdisj⟩ := h
    rcases List.mem_cons.mp he with h1 | h1 <;> rcases List.mem_cons.mp he' with h2 | h2
    · rw [h1, h2]
    · rw [h1] at hk
      exact (hdisj hk (mem_joinNames.mpr ⟨e', h2, hk'⟩)).elim
    · rw [h2] at hk'
      exact (hdisj hk' (mem_joinNames.mpr ⟨e, h1, hk⟩)).elim
    · exact ih hrest e e' k h1 h2 hk hk'

end MergeSafetensors

namespace MergeSafetensors

/-! ## Merge-accumulator lemmas -/

theorem keysOf_cons (e : String × T) (m : List (String × T)) :
    keysOf (e :: m) = e.1 :: keysOf m := rfl

theorem alookup_dinsert (m : List (String × T)) (k : String) (v : T) (q : String) :
    alookup (dinsert m k v) q = if q = k then some v else alookup m q := by
  induction m with
  | nil =>
    by_cases h : k = q
    · simp [dinsert, alookup, h]
    · have h' : ¬q = k := fun hh => h hh.symm
      simp [dinsert, alookup, h, h']
  | cons e m ih =>
    rcases e with ⟨k', v'⟩
    by_cases h : k' = k
    · by_cases hq : q = k
      · simp [dinsert, alookup, h, hq]
      · have hq2 : ¬k = q := fun hh => hq hh.symm
        simp [dinsert, alookup, h, hq, hq2]
    · by_cases hq : k' = q
      · have hqk : ¬q = k := fun hh => h (hq.trans hh)
        simp [dinsert, alookup, h, hq, hqk]
      · simp [dinsert, alookup, h, hq, ih]

theorem mem_keysOf_dinsert (m : List (String × T)) (k : String) (v : T) (q : String) :
    q ∈ keysOf (dinsert m k v) ↔ q = k ∨ q ∈ keysOf m := by
  induction m with
  | nil => simp [dinsert, keysOf]
  | cons e m ih =>
    rcases e with ⟨k', v'⟩
    by_cases h : k' = k
    · simp only [dinsert, h, if_true, eq_self_iff_true, keysOf_cons, List.mem_cons]
      tauto
    · simp only [dinsert, if_neg h, keysOf_cons, List.mem_cons, ih]
      tauto

/-! ## Streaming-loader lemmas: the per-shard loop -/

/-- The merged dict built by the per-shard loop does not depend on the log
accumulated so far. -/
theorem processShard_fst_log_irrel (sh : Shard T) (path : String) :
    ∀ (ks : List String) (m : List (String × T)) (log log' : List Event),
      (processShard sh path ks (m, log)).1 = (processShard sh path ks (m, log')).1 := by
  intro ks
  induction ks with
  | nil => intro m log log'; rfl
  | cons k ks ih =>
    intro m log log'
    by_cases hk : k ∈ sh.keys
    · cases hget : sh.get k with
      | some t => simp only [processShard, if_pos hk, hget]; exact ih _ _ _
      | none => simp only [processShard, if_pos hk, hget]; exact ih _ _ _
    · simp only [processShard, if_neg hk]
      exact ih _ _ _

/-- The per-shard loop only ever appends to the log. -/
theorem processShard_log_mem (sh : Shard T) (path : String) :
    ∀ (ks : List String) (m : List (String × T)) (log : List Event) (ev : Event),
      ev ∈ log → ev ∈ (processShard sh path ks (m, log)).2 := by
  intro ks
  induction ks with
  | nil => intro m log ev h; exact h
  | cons k ks ih =>
    intro m log ev h
    by_cases hk : k ∈ sh.keys
    · cases hget : sh.get k with
      | some t =>
        simp only [processShard, if_pos hk, hget]
        exact ih _ _ _ h
      | none =>
        simp only [processShard, if_pos hk, hget]
        exact ih _ _ _ (by simp [h])
    · simp only [processShard, if_neg hk]
      exact ih _ _ _ (by simp [h])

/-- The per-shard loop splits over a concatenation of requested-name lists. -/
theorem processShard_append (sh : Shard T) (path : String) :
    ∀ (ks₁ ks₂ : List String) (st : List (String × T) × List Event),
      processShard sh path (ks₁ ++ ks₂) st =
        processShard sh path ks₂ (processShard sh path ks₁ st) := by
  intro ks₁
  induction ks₁ with
  | nil => intro ks₂ st; rfl
  | cons k ks₁ ih =>
    intro ks₂ st
    rcases st with ⟨m, log⟩
    by_cases hk : k ∈ sh.keys
    · cases hget : sh.get k with
      | some t => simp only [List.cons_append, processShard, if_pos hk, hget]; exact ih _ _
      | none => simp only [List.cons_append, processShard, if_pos hk, hget]; exact ih _ _
    · simp only [List.cons_append, processShard, if_neg hk]
      exact ih _ _

end MergeSafetensors

namespace MergeSafetensors

/-- Skipping a missing key: one loop step that only logs. -/
theorem processShard_step_missing (sh : Shard T) (path k : String) (ks : List String)
    (m : List (String × T)) (log : List Event) (hk : k ∉ sh.keys) :
    processShard sh path (k :: ks) (m, log) =
      processShard sh path ks (m, log ++ [Event.missingKey path k]) := by
  simp [processShard, hk]

/-- Skipping an unreadable tensor: one loop step that only logs. -/
theorem processShard_step_readfail (sh : Shard T) (path k : String) (ks : List String)
    (m : List (String × T)) (log : List Event) (hk : k ∈ sh.keys)
    (hget : sh.get k = none) :
    processShard sh path (k :: ks) (m, log) =
      processShard sh path ks (m, log ++ [Event.readFail path k]) := by
  simp [processShard, hk, hget]

/-! ## Streaming-loader lemmas: the shard loop -/

/-- The run aborts fatally iff some planned shard cannot be opened —
regardless of the shard contents, of the requested names, and of everything
already merged. -/
theorem processPlanList_error_iff (fs : String → Option (Shard T)) :
    ∀ (l : List (String × List String)) (st : List (String × T) × List Event),
      processPlanList fs l st = Except.error () ↔ ∃ e ∈ l, fs e.1 = none := by
  intro l
  induction l with
  | nil =>
    intro st
    simp [processPlanList]
  | cons e l ih =>
    intro st
    rcases e with ⟨p, ks⟩
    rcases st with ⟨m, log⟩
    cases hfs : fs p with
    | none =>
      simp only [processPlanList, hfs]
      constructor
      · intro _
        exact ⟨(p, ks), List.mem_cons_self _ _, hfs⟩
      · intro _
        trivial
    | some sh =>
      simp only [processPlanList, hfs]
      rw [ih]
      constructor
      · rintro ⟨e, he, hne⟩
        exact ⟨e, List.mem_cons_of_mem _ he, hne⟩
      · rintro ⟨e, he, hne⟩
        rcases List.mem_cons.mp he with h1 | h1
        · rw [h1] at hne
          rw [hne] at hfs
          cases hfs
        · exact ⟨e, h1, hne⟩

/-- A loader run is either a success or the fatal abort. -/
theorem processPlanList_ok_or_error (fs : String → Option (Shard T))
    (l : List (String × List String)) (st : List (String × T) × List Event) :
    (∃ out, processPlanList fs l st = Except.ok out) ∨
      processPlanList fs l st = Except.error () := by
  cases h : processPlanList fs l st with
  | ok out => exact Or.inl ⟨out, rfl⟩
  | error u => cases u; exact Or.inr rfl

theorem opensOf_append (a b : List Event) : opensOf (a ++ b) = opensOf a ++ opensOf b := by
  simp [opensOf]

/-- The per-shard loop emits no open-progress event. -/
theorem processShard_opensOf (sh : Shard T) (path : String) :
    ∀ (ks : List String) (m : List (String × T)) (log : List Event),
      opensOf (processShard sh path ks (m, log)).2 = opensOf log := by
  intro ks
  induction ks with
  | nil => intro m log; rfl
  | cons k ks ih =>
    intro m log
    by_cases hk : k ∈ sh.keys
    · cases hget : sh.get k with
      | some t =>
        simp only [processShard, if_pos hk, hget]
        exact ih _ _
      | none =>
        simp only [processShard, if_pos hk, hget]
        rw [ih, opensOf_append]
        simp [opensOf]
    · simp only [processShard, if_neg hk]
      rw [ih, opensOf_append]
      simp [opensOf]

/-- On success, the loader reports progress on exactly the planned entries,
in their order. -/
theorem processPlanList_opensOf (fs : String → Option (Shard T)) :
    ∀ (l : List (String × List String)) (m : List (String × T)) (log : List Event)
      (out : List (String × T) × List Event),
      processPlanList fs l (m, log) = Except.ok out →
      opensOf out.2 = opensOf log ++ l.map Prod.fst := by
  intro l
  induction l with
  | nil =>
    intro m log out h
    cases h
    simp [opensOf]
  | cons e l ih =>
    intro m log out h
    rcases e with ⟨p, ks⟩
    cases hfs : fs p with
    | none => rw [processPlanList, hfs] at h; cases h
    | some sh =>
      rw [processPlanList, hfs] at h
      have h2 := ih _ _ _ h
      rw [processShard_opensOf, opensOf_append] at h2
      simpa [opensOf] using h2

end MergeSafetensors

namespace MergeSafetensors

/-- Keys already merged survive the per-shard loop. -/
theorem mem_keysOf_processShard_mono (sh : Shard T) (path : String) :
    ∀ (ks : List String) (m : List (String × T)) (log : List Event) (q : String),
      q ∈ keysOf m → q ∈ keysOf (processShard sh path ks (m, log)).1 := by
  intro ks
  induction ks with
  | nil => intro m log q h; exact h
  | cons k ks ih =>
    intro m log q h
    by_cases hk : k ∈ sh.keys
    · cases hget : sh.get k with
      | some t =>
        simp only [processShard, if_pos hk, hget]
        exact ih _ _ _ ((mem_keysOf_dinsert m k t q).mpr (Or.inr h))
      | none =>
        simp only [processShard, if_pos hk, hget]
        exact ih _ _ _ h
    · simp only [processShard, if_neg hk]
      exact ih _ _ _ h

/-- The per-shard loop only merges keys it was asked for. -/
theorem mem_keysOf_processShard (sh : Shard T) (path : String) :
    ∀ (ks : List String) (m : List (String × T)) (log : List Event) (q : String),
      q ∈ keysOf (processShard sh path ks (m, log)).1 → q ∈ ks ∨ q ∈ keysOf m := by
  intro ks
  induction ks with
  | nil => intro m log q h; exact Or.inr h
  | cons k ks ih =>
    intro m log q h
    by_cases hk : k ∈ sh.keys
    · cases hget : sh.get k with
      | some t =>
        simp only [processShard, if_pos hk, hget] at h
        rcases ih _ _ _ h with h1 | h1
        · exact Or.inl (List.mem_cons_of_mem _ h1)
        · rcases (mem_keysOf_dinsert m k t q).mp h1 with h2 | h2
          · exact Or.inl (by rw [h2]; exact List.mem_cons_self _ _)
          · exact Or.inr h2
      | none =>
        simp only [processShard, if_pos hk, hget] at h
        rcases ih _ _ _ h with h1 | h1
        · exact Or.inl (List.mem_cons_of_mem _ h1)
        · exact Or.inr h1
    · simp only [processShard, if_neg hk] at h
      rcases ih _ _ _ h with h1 | h1
      · exact Or.inl (List.mem_cons_of_mem _ h1)
      · exact Or.inr h1

/-- A requested key that is present in the shard and readable ends up
merged. -/
theorem mem_keysOf_processShard_success (sh : Shard T) (path : String) :
    ∀ (ks : List String) (m : List (String × T)) (log : List Event) (k : String),
      k ∈ ks → k ∈ sh.keys → (sh.get k).isSome = true →
      k ∈ keysOf (processShard sh path ks (m, log)).1 := by
  intro ks
  induction ks with
  | nil => intro m log k h; cases h
  | cons k' ks ih =>
    intro m log k hmem hk hsome
    rcases List.mem_cons.mp hmem with h1 | h1
    · subst h1
      cases hget : sh.get k with
      | some t =>
        simp only [processShard, if_pos hk, hget]
        exact mem_keysOf_processShard_mono sh path ks _ _ k
          ((mem_keysOf_dinsert m k t k).mpr (Or.inl rfl))
      | none => rw [hget] at hsome; cases hsome
    · by_cases hk' : k' ∈ sh.keys
      · cases hget : sh.get k' with
        | some t =>
          simp only [processShard, if_pos hk', hget]
          exact ih _ _ _ h1 hk hsome
        | none =>
          simp only [processShard, if_pos hk', hget]
          exact ih _ _ _ h1 hk hsome
      · simp only [processShard, if_neg hk']
        exact ih _ _ _ h1 hk hsome

/-- Keys already merged survive the rest of the run, if it succeeds. -/
theorem mem_keysOf_processPlanList_mono (fs : String → Option (Shard T)) :
    ∀ (l : List (String × List String)) (m : List (String × T)) (log : List Event)
      (out : List (String × T) × List Event) (q : String),
      processPlanList fs l (m, log) = Except.ok out →
      q ∈ keysOf m → q ∈ keysOf out.1 := by
  intro l
  induction l with
  | nil =>
    intro m log out q h hq
    cases h
    exact hq
  | cons e l ih =>
    intro m log out q h hq
    rcases e with ⟨p, ks⟩
    cases hfs : fs p with
    | none => rw [processPlanList, hfs] at h; cases h
    | some sh =>
      rw [processPlanList, hfs] at h
      exact ih _ _ _ _ h (mem_keysOf_processShard_mono sh p ks _ _ q hq)

/-- Every merged key was requested by some plan entry (or already there). -/
theorem mem_keysOf_processPlanList (fs : String → Option (Shard T)) :
    ∀ (l : List (String × List String)) (m : List (String × T)) (log : List Event)
      (out : List (String × T) × List Event) (q : String),
      processPlanList fs l (m, log) = Except.ok out →
      q ∈ keysOf out.1 → q ∈ joinNames l ∨ q ∈ keysOf m := by
  intro l
  induction l with
  | nil =>
    intro m log out q h hq
    cases h
    exact Or.inr hq
  | cons e l ih =>
    intro m log out q h hq
    rcases e with ⟨p, ks⟩
    cases hfs : fs p with
    | none => rw [processPlanList, hfs] at h; cases h
    | some sh =>
      rw [processPlanList, hfs] at h
      rcases ih _ _ _ _ h hq with h1 | h1
      · exact Or.inl (by rw [joinNames_cons]; exact List.mem_append_right _ h1)
      · rcases mem_keysOf_processShard sh p ks _ _ q h1 with h2 | h2
        · exact Or.inl (by rw [joinNames_cons]; exact List.mem_append_left _ h2)
        · exact Or.inr h2

/-- In the success case every requested key gets merged. -/
theorem mem_keysOf_processPlanList_success (fs : String → Option (Shard T)) :
    ∀ (l : List (String × List String)) (m : List (String × T)) (log : List Event)
      (out : List (String × T) × List Event) (k : String),
      processPlanList fs l (m, log) = Except.ok out →
      PlanSucceeds fs l → k ∈ joinNames l → k ∈ keysOf out.1 := by
  intro l
  induction l with
  | nil =>
    intro m log out k h hsucc hk
    rw [joinNames_nil] at hk
    cases hk
  | cons e l ih =>
    intro m log out k h hsucc hk
    rcases e with ⟨p, ks⟩
    obtain ⟨sh, hfs, hkeys⟩ := hsucc _ (List.mem_cons_self _ _)
    rw [processPlanList, hfs] at h
    have hsucc' : PlanSucceeds fs l := fun e he => hsucc e (List.mem_cons_of_mem _ he)
    rw [joinNames_cons] at hk
    rcases List.mem_append.mp hk with h1 | h1
    · obtain ⟨hpres, hsome⟩ := hkeys k h1
      exact mem_keysOf_processPlanList_mono fs l _ _ _ k h
        (mem_keysOf_processShard_success sh p ks _ _ k h1 hpres hsome)
    · exact ih _ _ _ _ h hsucc' h1

end MergeSafetensors

namespace MergeSafetensors

/-! ## Plan-iteration lemmas: sorted order and dict lookup -/


theorem load_tensors_eq_processPlanList (fs : String → Option (Shard T))
    (plan : ShardPlan) :
    load_tensors fs plan = processPlanList fs (planEntries plan) ([], []) := rfl

theorem planEntries_map_fst (plan : ShardPlan) :
    (planEntries plan).map Prod.fst = sortedShardFiles plan := by
  unfold planEntries
  rw [List.map_map]
  have h : ∀ p ∈ sortedShardFiles plan,
      (Prod.fst ∘ fun p => (p, findNames plan p)) p = id p := fun p _ => rfl
  rw [List.map_congr_left h, List.map_id]

theorem mem_findNames {plan : ShardPlan} {p k : String} (h : k ∈ findNames plan p) :
    ∃ e ∈ plan, e.1 = p ∧ k ∈ e.2 := by
  unfold findNames at h
  cases hf : plan.find? (fun e => decide (e.1 = p)) with
  | none => rw [hf] at h; cases h
  | some e =>
    rw [hf] at h
    refine ⟨e, List.mem_of_find?_eq_some hf, ?_, h⟩
    have := List.find?_some hf
    exact of_decide_eq_true this

/-- With no duplicate shard paths, an entry is determined by its path. -/
theorem fst_eq_of_mem_of_nodup :
    ∀ (plan : ShardPlan), (plan.map Prod.fst).Nodup →
      ∀ e e' : String × List String, e ∈ plan → e' ∈ plan → e.1 = e'.1 → e = e' := by
  intro plan
  induction plan with
  | nil => intro _ e e' he; cases he
  | cons x plan ih =>
    intro h e e' he he' hfst
    rw [List.map_cons, List.nodup_cons] at h
    rcases h with ⟨hx, hrest⟩
    rcases List.mem_cons.mp he with h1 | h1 <;> rcases List.mem_cons.mp he' with h2 | h2
    · rw [h1, h2]
    · exact absurd (List.mem_map.mpr ⟨e', h2, by rw [← hfst, h1]⟩) hx
    · exact absurd (List.mem_map.mpr ⟨e, h1, by rw [hfst, h2]⟩) hx
    · exact ih hrest e e' h1 h2 hfst

/-- With no duplicate shard paths, the plan's dict lookup returns exactly the
entry's name list. -/
theorem findNames_eq {plan : ShardPlan} (h : (plan.map Prod.fst).Nodup)
    {e : String × List String} (he : e ∈ plan) : findNames plan e.1 = e.2 := by
  unfold findNames
  cases hf : plan.find? (fun x => decide (x.1 = e.1)) with
  | none =>
    have := List.find?_eq_none.mp hf e he
    simp at this
  | some x =>
    have hx : x ∈ plan := List.mem_of_find?_eq_some hf
    have hpred := List.find?_some hf
    have hfst : x.1 = e.1 := of_decide_eq_true hpred
    rw [fst_eq_of_mem_of_nodup plan h x e hx he hfst]

/-- With no duplicate shard paths, iterating the sorted dict visits exactly
the plan's entries, in some order. -/
theorem planEntries_perm (plan : ShardPlan) (h : (plan.map Prod.fst).Nodup) :
    List.Perm (planEntries plan) plan := by
  have h1 : List.Perm (sortedShardFiles plan) (plan.map Prod.fst) :=
    sortStrings_perm _
  have h2 : List.Perm (planEntries plan)
      ((plan.map Prod.fst).map (fun p => (p, findNames plan p))) :=
    h1.map _
  rw [List.map_map] at h2
  have h3 : plan.map ((fun p => (p, findNames plan p)) ∘ Prod.fst) = plan := by
    have : ∀ e ∈ plan, ((fun p => (p, findNames plan p)) ∘ Prod.fst) e = id e := by
      intro e he
      simp only [Function.comp_apply, id_eq]
      rw [findNames_eq h he]
    rw [List.map_congr_left this, List.map_id]
  rw [h3] at h2
  exact h2

/-- Every name requested by the iterated entry list is a name of the plan. -/
theorem mem_joinNames_planEntries {plan : ShardPlan} {k : String}
    (h : k ∈ joinNames (planEntries plan)) : k ∈ joinNames plan := by
  obtain ⟨e, he, hk⟩ := mem_joinNames.mp h
  obtain ⟨p, hp, hpe⟩ := List.mem_map.mp he
  obtain ⟨e', he', _, hk'⟩ := mem_findNames (show k ∈ findNames plan p by
    rw [← show (p, findNames plan p).2 = findNames plan p from rfl, hpe]
    exact hk)
  exact mem_joinNames.mpr ⟨e', he', hk'⟩

end MergeSafetensors

namespace MergeSafetensors

/-! ## Order-independence machinery: canonical per-name lookup -/


theorem optOr_none_left (x : Option T) : optOr none x = x := rfl

theorem optOr_none_right (x : Option T) : optOr x none = x := by
  cases x <;> rfl



theorem planHit_of_not_mem (fs : String → Option (Shard T))
    {l : List (String × List String)} {q : String} (h : ∀ e ∈ l, q ∉ e.2) :
    planHit fs l q = none := by
  unfold planHit
  rw [List.find?_eq_none.mpr (fun e he => by simpa using h e he)]

/-- Lookup after the per-shard loop: the shard's contribution if the name was
requested, present and readable, otherwise whatever was there before. -/
theorem alookup_processShard (sh : Shard T) (path : String) :
    ∀ (ks : List String) (m : List (String × T)) (log : List Event) (q : String),
      alookup (processShard sh path ks (m, log)).1 q =
        if q ∈ ks ∧ q ∈ sh.keys ∧ (sh.get q).isSome = true then sh.get q
        else alookup m q := by
  intro ks
  induction ks with
  | nil =>
    intro m log q
    simp [processShard]
  | cons k ks ih =>
    intro m log q
    by_cases hk : k ∈ sh.keys
    · cases hget : sh.get k with
      | some t =>
        simp only [processShard, if_pos hk, hget]
        rw [ih]
        by_cases hq : q = k
        · subst hq
          simp [List.mem_cons, hk, hget, alookup_dinsert]
        · simp [List.mem_cons, hq, alookup_dinsert]
      | none =>
        simp only [processShard, if_pos hk, hget]
        rw [ih]
        by_cases hq : q = k
        · subst hq
          simp [List.mem_cons, hk, hget]
        · simp [List.mem_cons, hq]
    · simp only [processShard, if_neg hk]
      rw [ih]
      by_cases hq : q = k
      · subst hq
        simp [List.mem_cons, hk]
      · simp [List.mem_cons, hq]

/-- Lookup after a whole loader run, assuming no cross-shard collisions: the
canonical per-name value, with fallback to the initial dict. -/
theorem alookup_processPlanList (fs : String → Option (Shard T)) :
    ∀ (l : List (String × List String)) (m : List (String × T)) (log : List Event)
      (out : List (String × T) × List Event),
      processPlanList fs l (m, log) = Except.ok out →
      (joinNames l).Nodup →
      ∀ q, alookup out.1 q = optOr (planHit fs l q) (alookup m q) := by
  intro l
  induction l with
  | nil =>
    intro m log out h _ q
    cases h
    simp [planHit, optOr_none_left]
  | cons e l ih =>
    intro m log out h hnd q
    rcases e with ⟨p, ks⟩
    cases hfs : fs p with
    | none => rw [processPlanList, hfs] at h; cases h
    | some sh =>
      rw [processPlanList, hfs] at h
      rw [joinNames_cons, List.nodup_append] at hnd
      rcases hnd with ⟨-, hndl, hdisj⟩
      have hml := ih _ _ _ h hndl q
      have hshard := alookup_processShard sh p ks m (log ++ [Event.openShard p]) q
      by_cases hqks : q ∈ ks
      · have hnotl : planHit fs l q = none :=
          planHit_of_not_mem fs (fun e he hq =>
            hdisj hqks (mem_joinNames.mpr ⟨e, he, hq⟩))
        have hhead : planHit fs ((p, ks) :: l) q = hitVal fs (p, ks) q := by
          unfold planHit
          rw [List.find?_cons_of_pos _ (by simpa using hqks)]
        rw [hml, hnotl, optOr_none_left, hshard, hhead]
        unfold hitVal
        rw [hfs]
        by_cases hqkeys : q ∈ sh.keys
        · cases hgq : sh.get q with
          | some v => simp [hqks, hqkeys, hgq, optOr]
          | none => simp [hqks, hqkeys, hgq, optOr]
        · simp [hqkeys, optOr]
      · have hhead : planHit fs ((p, ks) :: l) q = planHit fs l q := by
          unfold planHit
          rw [List.find?_cons_of_neg _ (by simpa using hqks)]
        rw [hml, hshard, hhead]
        simp [hqks]

/-- The canonical per-name value is invariant under reordering the plan
entries, when no name is requested from two entries. -/
theorem planHit_perm (fs : String → Option (Shard T))
    {l₁ l₂ : List (String × List String)} (hp : List.Perm l₁ l₂)
    (hnd : (joinNames l₂).Nodup) (q : String) :
    planHit fs l₁ q = planHit fs l₂ q := by
  cases hf1 : l₁.find? (fun e => decide (q ∈ e.2)) with
  | none =>
    have hall := List.find?_eq_none.mp hf1
    have hall2 : ∀ e ∈ l₂, ¬(decide (q ∈ e.2) = true) := fun e he =>
      hall e (hp.mem_iff.mpr he)
    unfold planHit
    rw [hf1, List.find?_eq_none.mpr hall2]
  | some e =>
    have he1 : e ∈ l₁ := List.mem_of_find?_eq_some hf1
    have hpred := List.find?_some hf1
    have hqe : q ∈ e.2 := of_decide_eq_true hpred
    have he2 : e ∈ l₂ := hp.mem_iff.mp he1
    cases hf2 : l₂.find? (fun e => decide (q ∈ e.2)) with
    | none =>
      have := List.find?_eq_none.mp hf2 e he2
      simp [hqe] at this
    | some e' =>
      have he2' : e' ∈ l₂ := List.mem_of_find?_eq_some hf2
      have hpred' := List.find?_some hf2
      have hqe' : q ∈ e'.2 := of_decide_eq_true hpred'
      have : e' = e := entry_unique_of_nodup_joinNames l₂ hnd e' e q he2' he2 hqe' hqe
      unfold planHit
      rw [hf1, hf2, this]

/-- Reordering preserves the requested-name multiset. -/
theorem joinNames_perm {l₁ l₂ : List (String × List String)}
    (h : List.Perm l₁ l₂) : List.Perm (joinNames l₁) (joinNames l₂) :=
  (h.map Prod.snd).flatten

end MergeSafetensors

namespace MergeSafetensors

/-! ## Remaining support lemmas -/

/-- With no duplicate shard paths, every plan name is requested by the
iterated entry list. -/
theorem mem_joinNames_planEntries_of_nodup {plan : ShardPlan}
    (hnd : (plan.map Prod.fst).Nodup) {k : String}
    (hk : k ∈ joinNames plan) : k ∈ joinNames (planEntries plan) := by
  obtain ⟨e, he, hke⟩ := mem_joinNames.mp hk
  have hp : e.1 ∈ sortedShardFiles plan :=
    (sortStrings_perm _).mem_iff.mpr (List.mem_map.mpr ⟨e, he, rfl⟩)
  refine mem_joinNames.mpr ⟨(e.1, findNames plan e.1), List.mem_map.mpr ⟨e.1, hp, rfl⟩, ?_⟩
  rw [findNames_eq hnd he]
  exact hke

/-- Success of the plan transfers to the entry list actually iterated. -/
theorem planSucceeds_planEntries {fs : String → Option (Shard T)} {plan : ShardPlan}
    (hnd : (plan.map Prod.fst).Nodup) (h : PlanSucceeds fs plan) :
    PlanSucceeds fs (planEntries plan) := by
  intro e he
  obtain ⟨p, hp, hpe⟩ := List.mem_map.mp he
  have hp' : p ∈ plan.map Prod.fst := (sortStrings_perm _).mem_iff.mp hp
  obtain ⟨e₀, he₀, hfst⟩ := List.mem_map.mp hp'
  obtain ⟨sh, hfs, hkeys⟩ := h e₀ he₀
  refine ⟨sh, ?_, ?_⟩
  · rw [← hpe]
    simpa [hfst] using hfs
  · intro k hk
    apply hkeys
    rw [← hpe] at hk
    simp only at hk
    rw [show p = e₀.1 from hfst.symm, findNames_eq hnd he₀] at hk
    exact hk

/-- The collision test of `main` (source line 309) in terms of the plan's
path list. -/
theorem any_fst_eq_iff (plan : ShardPlan) (x : String) :
    (plan.any (fun e => decide (e.1 = x)) = true) ↔ x ∈ plan.map Prod.fst := by
  simp only [List.any_eq_true, List.mem_map, decide_eq_true_eq]

theorem dropWhile_eq_nil_of_all {p : Char → Bool} :
    ∀ xs : List Char, xs.all p = true → xs.dropWhile p = [] := by
  intro xs
  induction xs with
  | nil => intro _; rfl
  | cons c cs ih =>
    intro h
    rw [List.all_cons, Bool.and_eq_true] at h
    rw [List.dropWhile_cons_of_pos h.1]
    exact ih h.2

/-- A string of whitespace strips to the empty string. -/
theorem pystrip_of_all_space {s : String} (h : s.data.all isPySpace = true) :
    pystrip s = "" := by
  unfold pystrip
  rw [dropWhile_eq_nil_of_all _ h]
  rfl

theorem ensureSafetensors_default :
    ensureSafetensors "model-merged.safetensors" = "model-merged.safetensors" := by
  rfl

end MergeSafetensors

namespace MergeSafetensors


/-! ## The claims -/

/-- C1: for every weight map with unique keys and every path resolution, the
shard plan produced by `group_keys_by_shard` partitions exactly the key set
of the weight map: the plan's name lists concatenate to a permutation of the
key list (no omissions, no duplications), the plan's shard paths are
distinct, and every key appears in the name list of exactly one plan
entry. -/
theorem C1_shard_plan_partitions_weight_map (wm : WeightMap)
    (resolve : String → String) (h : (wm.map Prod.fst).Nodup) :
    List.Perm (joinNames (group_keys_by_shard wm resolve)) (wm.map Prod.fst) ∧
    ((group_keys_by_shard wm resolve).map Prod.fst).Nodup ∧
    ∀ k ∈ wm.map Prod.fst,
      ∃ e ∈ group_keys_by_shard wm resolve, k ∈ e.2 ∧
        ∀ e' ∈ group_keys_by_shard wm resolve, k ∈ e'.2 → e' = e := by
  refine ⟨group_joinNames_perm wm resolve, group_map_fst_nodup wm resolve, ?_⟩
  intro k hk
  have hperm := group_joinNames_perm wm resolve
  have hkj : k ∈ joinNames (group_keys_by_shard wm resolve) := hperm.mem_iff.mpr hk
  obtain ⟨e, he, hke⟩ := mem_joinNames.mp hkj
  have hnd : (joinNames (group_keys_by_shard wm resolve)).Nodup :=
    hperm.nodup_iff.mpr h
  exact ⟨e, he, hke, fun e' he' hke' =>
    entry_unique_of_nodup_joinNames _ hnd e' e k he' he hke' hke⟩

theorem C1_shard_plan_partitions_weight_map_witness :
    (wmEx.map Prod.fst).Nodup ∧
    List.Perm (joinNames (group_keys_by_shard wmEx resolveEx)) (wmEx.map Prod.fst) :=
  ⟨by decide, (C1_shard_plan_partitions_weight_map wmEx resolveEx (by decide)).1⟩

/-- C2: per-name and shard-level failures are asymmetric.  A requested name
absent from its opened shard is warned about (`missingKey`) and skipped, the
merged result being exactly that of the request list without the name; a
present but unreadable name is warned about (`readFail`) and skipped the
same way; whereas a planned shard that cannot be opened makes `load_tensors`
abort with the fatal error, discarding every already-merged tensor (the
error carries no result), and content-level failures alone never abort. -/
theorem C2_failure_asymmetry :
    (∀ (sh : Shard T) (p k : String) (ks₁ ks₂ : List String)
        (m : List (String × T)) (log : List Event), k ∉ sh.keys →
        (processShard sh p (ks₁ ++ k :: ks₂) (m, log)).1 =
          (processShard sh p (ks₁ ++ ks₂) (m, log)).1 ∧
        Event.missingKey p k ∈ (processShard sh p (ks₁ ++ k :: ks₂) (m, log)).2) ∧
    (∀ (sh : Shard T) (p k : String) (ks₁ ks₂ : List String)
        (m : List (String × T)) (log : List Event),
        k ∈ sh.keys → sh.get k = none →
        (processShard sh p (ks₁ ++ k :: ks₂) (m, log)).1 =
          (processShard sh p (ks₁ ++ ks₂) (m, log)).1 ∧
        Event.readFail p k ∈ (processShard sh p (ks₁ ++ k :: ks₂) (m, log)).2) ∧
    (∀ (fs : String → Option (Shard T)) (plan : ShardPlan) (p : String),
        p ∈ plan.map Prod.fst → fs p = none →
        load_tensors fs plan = Except.error ()) ∧
    (∀ (fs : String → Option (Shard T)) (l : List (String × List String))
        (st : List (String × T) × List Event),
        (∀ e ∈ l, (fs e.1).isSome = true) →
        ∃ out, processPlanList fs l st = Except.ok out) := by
  refine ⟨?_, ?_, ?_, ?_⟩
  · intro sh p k ks₁ ks₂ m log hk
    rcases hst : processShard sh p ks₁ (m, log) with ⟨m₁, log₁⟩
    constructor
    · rw [processShard_append, processShard_append, hst,
        processShard_step_missing sh p k ks₂ m₁ log₁ hk]
      exact processShard_fst_log_irrel sh p ks₂ m₁ _ _
    · rw [processShard_append, hst, processShard_step_missing sh p k ks₂ m₁ log₁ hk]
      exact processShard_log_mem sh p ks₂ m₁ _ _ (by simp)
  · intro sh p k ks₁ ks₂ m log hk hget
    rcases hst : processShard sh p ks₁ (m, log) with ⟨m₁, log₁⟩
    constructor
    · rw [processShard_append, processShard_append, hst,
        processShard_step_readfail sh p k ks₂ m₁ log₁ hk hget]
      exact processShard_fst_log_irrel sh p ks₂ m₁ _ _
    · rw [processShard_append, hst,
        processShard_step_readfail sh p k ks₂ m₁ log₁ hk hget]
      exact processShard_log_mem sh p ks₂ m₁ _ _ (by simp)
  · intro fs plan p hp hfs
    rw [load_tensors_eq_processPlanList]
    refine (processPlanList_error_iff fs (planEntries plan) ([], [])).mpr ?_
    refine ⟨(p, findNames plan p), ?_, hfs⟩
    exact List.mem_map.mpr ⟨p, (sortStrings_perm _).mem_iff.mpr hp, rfl⟩
  · intro fs l st hopen
    rcases processPlanList_ok_or_error fs l st with h | h
    · exact h
    · obtain ⟨e, he, hnone⟩ := (processPlanList_error_iff fs l st).mp h
      have hsome := hopen e he
      rw [hnone] at hsome
      cases hsome

theorem C2_failure_asymmetry_witness :
    ("x" ∉ shEx1.keys ∧
      (processShard shEx1 "A/s1" (["a"] ++ "x" :: []) ([], [])).1 =
        (processShard shEx1 "A/s1" (["a"] ++ []) ([], [])).1 ∧
      Event.missingKey "A/s1" "x" ∈
        (processShard shEx1 "A/s1" (["a"] ++ "x" :: []) ([], [])).2) ∧
    ("b" ∈ shBad.keys ∧ shBad.get "b" = none ∧
      (processShard shBad "A/s1" (["a"] ++ "b" :: []) ([], [])).1 =
        (processShard shBad "A/s1" (["a"] ++ []) ([], [])).1 ∧
      Event.readFail "A/s1" "b" ∈
        (processShard shBad "A/s1" (["a"] ++ "b" :: []) ([], [])).2) ∧
    ("A/s1" ∈ planEx.map Prod.fst ∧ fsNone "A/s1" = none ∧
      load_tensors fsNone planEx = Except.error ()) ∧
    ((∀ e ∈ planExRev, (fsEx e.1).isSome = true) ∧
      ∃ out, processPlanList fsEx planExRev ([], []) = Except.ok out) := by
  refine ⟨⟨by decide, ?_⟩, ⟨by decide, by decide, ?_⟩, ⟨by decide, rfl, ?_⟩, ⟨?_, ?_⟩⟩
  · exact C2_failure_asymmetry.1 shEx1 "A/s1" "x" ["a"] [] [] [] (by decide)
  · exact C2_failure_asymmetry.2.1 shBad "A/s1" "b" ["a"] [] [] [] (by decide) (by decide)
  · exact C2_failure_asymmetry.2.2.1 fsNone planEx "A/s1" (by decide) rfl
  · intro e he
    rcases List.mem_cons.mp he with h1 | h1
    · rw [h1]; rfl
    · rcases List.mem_cons.mp h1 with h2 | h2
      · rw [h2]; rfl
      · cases h2
  · refine C2_failure_asymmetry.2.2.2 fsEx planExRev ([], []) ?_
    intro e he
    rcases List.mem_cons.mp he with h1 | h1
    · rw [h1]; rfl
    · rcases List.mem_cons.mp h1 with h2 | h2
      · rw [h2]; rfl
      · cases h2

/-- C3: the key set of the Merged Set returned by `load_tensors` is always a
subset of the weight map's key set, with equality in the success case (every
planned shard opens, every requested name is present, every read
succeeds). -/
theorem C3_merged_keys_subset_success (fs : String → Option (Shard T))
    (wm : WeightMap) (resolve : String → String) (m : List (String × T))
    (log : List Event)
    (h : load_tensors fs (group_keys_by_shard wm resolve) = Except.ok (m, log)) :
    (∀ k ∈ keysOf m, k ∈ wm.map Prod.fst) ∧
    (PlanSucceeds fs (group_keys_by_shard wm resolve) →
      ∀ k, k ∈ keysOf m ↔ k ∈ wm.map Prod.fst) := by
  rw [load_tensors_eq_processPlanList] at h
  have hsub : ∀ k ∈ keysOf m, k ∈ wm.map Prod.fst := by
    intro k hk
    rcases mem_keysOf_processPlanList fs _ _ _ _ k h hk with h1 | h1
    · exact (group_joinNames_perm wm resolve).mem_iff.mp (mem_joinNames_planEntries h1)
    · simp [keysOf] at h1
  refine ⟨hsub, fun hsucc k => ⟨hsub k, fun hk => ?_⟩⟩
  have hk1 : k ∈ joinNames (group_keys_by_shard wm resolve) :=
    (group_joinNames_perm wm resolve).mem_iff.mpr hk
  have hk2 := mem_joinNames_planEntries_of_nodup (group_map_fst_nodup wm resolve) hk1
  exact mem_keysOf_processPlanList_success fs _ _ _ _ k h
    (planSucceeds_planEntries (group_map_fst_nodup wm resolve) hsucc) hk2

theorem C3_merged_keys_subset_success_witness :
    load_tensors fsEx (group_keys_by_shard wmEx resolveEx) =
      Except.ok ([("a", 1), ("b", 2), ("c", 3)],
        [Event.openShard "A/s1", Event.openShard "A/s2"]) ∧
    ("a" ∈ keysOf [("a", (1 : Nat)), ("b", 2), ("c", 3)] ↔ "a" ∈ wmEx.map Prod.fst) := by
  have hsucc : PlanSucceeds fsEx (group_keys_by_shard wmEx resolveEx) := by
    intro e he
    rcases List.mem_cons.mp he with h1 | h1
    · exact ⟨shEx1, by rw [h1]; rfl, by rw [h1]; decide⟩
    · rcases List.mem_cons.mp h1 with h2 | h2
      · exact ⟨shEx2, by rw [h2]; rfl, by rw [h2]; decide⟩
      · cases h2
  exact ⟨by rfl,
    (C3_merged_keys_subset_success fsEx wmEx resolveEx _ _ (by rfl)).2 hsucc "a"⟩

/-- C4: with no name requested from more than one shard, the final contents
of the Merged Set are independent of the order in which the shards are
processed: any reordering of the plan's entries yields, when fed to the
shard loop, the same name-to-tensor mapping that `load_tensors` (which uses
the sorted order) produces; only the log can differ. -/
theorem C4_merge_order_independent (fs : String → Option (Shard T))
    (plan : ShardPlan) (l : List (String × List String))
    (hnd : (plan.map Prod.fst).Nodup) (hnames : (joinNames plan).Nodup)
    (hperm : List.Perm l plan) :
    mergedView (processPlanList fs l ([], [])) = mergedView (load_tensors fs plan) := by
  have hpe : List.Perm (planEntries plan) plan := planEntries_perm plan hnd
  have hlpe : List.Perm l (planEntries plan) := hperm.trans hpe.symm
  rw [load_tensors_eq_processPlanList]
  by_cases herr : ∃ e ∈ plan, fs e.1 = none
  · obtain ⟨e, he, hnone⟩ := herr
    have h1 : processPlanList fs l ([], []) = Except.error () :=
      (processPlanList_error_iff fs l _).mpr ⟨e, hperm.mem_iff.mpr he, hnone⟩
    have h2 : processPlanList fs (planEntries plan) ([], []) = Except.error () :=
      (processPlanList_error_iff fs _ _).mpr ⟨e, hpe.mem_iff.mpr he, hnone⟩
    rw [h1, h2]
  · have hopen : ∀ e ∈ plan, fs e.1 ≠ none := fun e he hn => herr ⟨e, he, hn⟩
    have hok1 : ∃ out, processPlanList fs l ([], []) = Except.ok out := by
      rcases processPlanList_ok_or_error fs l ([], []) with h | h
      · exact h
      · obtain ⟨e, he, hnone⟩ := (processPlanList_error_iff fs l _).mp h
        exact absurd hnone (hopen e (hperm.mem_iff.mp he))
    have hok2 : ∃ out, processPlanList fs (planEntries plan) ([], []) = Except.ok out := by
      rcases processPlanList_ok_or_error fs (planEntries plan) ([], []) with h | h
      · exact h
      · obtain ⟨e, he, hnone⟩ := (processPlanList_error_iff fs _ _).mp h
        exact absurd hnone (hopen e (hpe.mem_iff.mp he))
    obtain ⟨out1, hout1⟩ := hok1
    obtain ⟨out2, hout2⟩ := hok2
    have hnd1 : (joinNames l).Nodup := ((joinNames_perm hperm).nodup_iff).mpr hnames
    have hnd2 : (joinNames (planEntries plan)).Nodup :=
      ((joinNames_perm hpe).nodup_iff).mpr hnames
    have hv1 := alookup_processPlanList fs l [] [] out1 hout1 hnd1
    have hv2 := alookup_processPlanList fs (planEntries plan) [] [] out2 hout2 hnd2
    rw [hout1, hout2]
    unfold mergedView
    simp only [Except.map]
    congr 1
    funext q
    rw [hv1 q, hv2 q]
    simp only [alookup, optOr_none_right]
    exact planHit_perm fs hlpe hnd2 q

theorem C4_merge_order_independent_witness :
    ((planEx.map Prod.fst).Nodup ∧ (joinNames planEx).Nodup ∧
      List.Perm planExRev planEx) ∧
    mergedView (processPlanList fsEx planExRev ([], [])) =
      mergedView (load_tensors fsEx planEx) :=
  ⟨⟨by decide, by decide, by decide⟩,
    C4_merge_order_independent fsEx planEx planExRev (by decide) (by decide) (by decide)⟩

/-- C5: output filename normalization.  If the resolved name's lowercase form
does not end in ".safetensors" the extension is appended; if it already does,
the name is unchanged; and blank interactive input resolves to the literal
default "model-merged.safetensors". -/
theorem C5_extension_normalization :
    (∀ name : String, strEndsWith (lowerStr name) ".safetensors" = false →
      ensureSafetensors name = name ++ ".safetensors") ∧
    (∀ name : String, strEndsWith (lowerStr name) ".safetensors" = true →
      ensureSafetensors name = name) ∧
    (∀ (name : String) (pr : PromptOutcome), name ≠ "" →
      get_output_filename (some name) pr = Except.ok (ensureSafetensors name)) ∧
    get_output_filename none (PromptOutcome.entered "") =
      Except.ok "model-merged.safetensors" := by
  refine ⟨?_, ?_, ?_, rfl⟩
  · intro name h
    simp [ensureSafetensors, h]
  · intro name h
    simp [ensureSafetensors, h]
  · intro name pr h
    simp [get_output_filename, h, Except.map]

theorem C5_extension_normalization_witness :
    (strEndsWith (lowerStr "foo") ".safetensors" = false ∧
      ensureSafetensors "foo" = "foo" ++ ".safetensors") ∧
    (strEndsWith (lowerStr "x.SafeTensors") ".safetensors" = true ∧
      ensureSafetensors "x.SafeTensors" = "x.SafeTensors") ∧
    get_output_filename (some "foo") PromptOutcome.eofInput =
      Except.ok (ensureSafetensors "foo") :=
  ⟨⟨by decide, C5_extension_normalization.1 "foo" (by decide)⟩,
   ⟨by decide, C5_extension_normalization.2.1 "x.SafeTensors" (by decide)⟩,
   C5_extension_normalization.2.2.1 "foo" PromptOutcome.eofInput (by decide)⟩

/-- C6: if the Merged Set is empty after loading, the run exits fatally with
code 1 and the write step is never reached. -/
theorem C6_empty_result_fatal (fs : String → Option (Shard T)) (plan : ShardPlan)
    (outputArg : Option String) (pr : PromptOutcome) (toAbs : String → String)
    (log : List Event)
    (h : load_tensors fs plan = Except.ok ([], log)) :
    (mainAfterPlan fs plan outputArg pr toAbs).1 = RunOutcome.exited 1 ∧
    ∀ (p : String) (ts : List (String × T)),
      (mainAfterPlan fs plan outputArg pr toAbs).1 ≠ RunOutcome.wrote p ts := by
  have hmain : (mainAfterPlan fs plan outputArg pr toAbs).1 = RunOutcome.exited 1 := by
    unfold mainAfterPlan
    rw [h]
    rfl
  refine ⟨hmain, fun p ts hw => ?_⟩
  rw [hmain] at hw
  cases hw

theorem C6_empty_result_fatal_witness :
    load_tensors fsEmpty [("s", ["k"])] =
      Except.ok ([], [Event.openShard "s", Event.missingKey "s" "k"]) ∧
    (mainAfterPlan fsEmpty [("s", ["k"])] (some "out") PromptOutcome.eofInput id).1 =
      RunOutcome.exited 1 :=
  ⟨by rfl, (C6_empty_result_fatal fsEmpty [("s", ["k"])] (some "out")
    PromptOutcome.eofInput id [Event.openShard "s", Event.missingKey "s" "k"]
    (by rfl)).1⟩

/-- C7: on every successful run, the loader reports progress on (and opens)
the plan's shard paths exactly in the stable sorted order of the absolute
path strings: the open-progress subsequence of the log is the sorted key
list, which is ordered under the code-point string order and is a
permutation of the plan's keys.  (The embedding is a pure function of the
plan, so this order is the same on every run with the same plan.) -/
theorem C7_sorted_load_order (fs : String → Option (Shard T)) (plan : ShardPlan)
    (m : List (String × T)) (log : List Event)
    (h : load_tensors fs plan = Except.ok (m, log)) :
    opensOf log = sortedShardFiles plan ∧
    List.Pairwise (fun a b => strLe a b = true) (sortedShardFiles plan) ∧
    List.Perm (sortedShardFiles plan) (plan.map Prod.fst) := by
  refine ⟨?_, sortStrings_sorted _, sortStrings_perm _⟩
  rw [load_tensors_eq_processPlanList] at h
  have h2 := processPlanList_opensOf fs (planEntries plan) [] [] (m, log) h
  simpa [opensOf, planEntries_map_fst] using h2

theorem C7_sorted_load_order_witness :
    opensOf [Event.openShard "A/s1", Event.openShard "A/s2"] = sortedShardFiles planEx ∧
    List.Pairwise (fun a b => strLe a b = true) (sortedShardFiles planEx) ∧
    List.Perm (sortedShardFiles planEx) (planEx.map Prod.fst) :=
  C7_sorted_load_order fsEx planEx [("a", 1), ("b", 2), ("c", 3)]
    [Event.openShard "A/s1", Event.openShard "A/s2"] (by rfl)

/-- C8: collision detection is advisory only.  When loading succeeded with a
nonempty Merged Set and the output filename resolved, the run writes the
merged tensors to the resolved absolute path — the same outcome whether or
not that path collides with a planned shard path — and the collision warning
flag is set exactly when it does collide. -/
theorem C8_collision_warning_advisory (fs : String → Option (Shard T))
    (plan : ShardPlan) (outputArg : Option String) (pr : PromptOutcome)
    (toAbs : String → String) (m : List (String × T)) (log : List Event)
    (name : String)
    (hload : load_tensors fs plan = Except.ok (m, log)) (hm : m ≠ [])
    (hname : get_output_filename outputArg pr = Except.ok name) :
    (mainAfterPlan fs plan outputArg pr toAbs).1 =
      RunOutcome.wrote (toAbs name) m ∧
    (toAbs name ∈ plan.map Prod.fst →
      (mainAfterPlan fs plan outputArg pr toAbs).2 = true) ∧
    (toAbs name ∉ plan.map Prod.fst →
      (mainAfterPlan fs plan outputArg pr toAbs).2 = false) := by
  have hempty : m.isEmpty = false := by
    cases m with
    | nil => cases hm rfl
    | cons a l => rfl
  have hmain : mainAfterPlan fs plan outputArg pr toAbs =
      (RunOutcome.wrote (toAbs name) m,
        plan.any (fun e => decide (e.1 = toAbs name))) := by
    unfold mainAfterPlan
    rw [hload]
    simp only [hempty, Bool.false_eq_true, if_false, hname]
  refine ⟨by rw [hmain], fun hmem => ?_, fun hne => ?_⟩
  · rw [hmain]
    exact (any_fst_eq_iff plan (toAbs name)).mpr hmem
  · rw [hmain]
    have hnot : ¬(plan.any (fun e => decide (e.1 = toAbs name)) = true) := fun ha =>
      hne ((any_fst_eq_iff plan (toAbs name)).mp ha)
    exact Bool.eq_false_iff.mpr hnot

theorem C8_collision_warning_advisory_witness :
    ("A/s1.safetensors" ∈ planC8.map Prod.fst) ∧
    (mainAfterPlan fsC8 planC8 (some "A/s1.safetensors") PromptOutcome.eofInput id).1 =
      RunOutcome.wrote "A/s1.safetensors" [("a", 1)] ∧
    (mainAfterPlan fsC8 planC8 (some "A/s1.safetensors") PromptOutcome.eofInput id).2 =
      true := by
  have happ := C8_collision_warning_advisory fsC8 planC8 (some "A/s1.safetensors")
    PromptOutcome.eofInput id [("a", 1)] [Event.openShard "A/s1.safetensors"]
    "A/s1.safetensors" (by rfl) (by decide) (by rfl)
  exact ⟨by decide, happ.1, happ.2.1 (by decide)⟩

/-- C9: interactive input to the filename prompt is stripped of leading and
trailing whitespace before the blank check: input consisting only of
whitespace resolves to the default name, exactly as empty input does, and
input with surrounding whitespace resolves to the stripped string (then
extension-normalized as usual). -/
theorem C9_prompt_whitespace_stripping :
    (∀ s : String, s.data.all isPySpace = true →
      get_output_filename none (PromptOutcome.entered s) =
        Except.ok "model-merged.safetensors") ∧
    (∀ s : String, pystrip s ≠ "" →
      get_output_filename none (PromptOutcome.entered s) =
        Except.ok (ensureSafetensors (pystrip s))) := by
  constructor
  · intro s h
    have hs := pystrip_of_all_space h
    simp [get_output_filename, promptResult, hs, Except.map, ensureSafetensors_default]
  · intro s h
    simp [get_output_filename, promptResult, h, Except.map]

theorem C9_prompt_whitespace_stripping_witness :
    (" \t\x1C\u0085\u00A0\u2003\u3000".data.all isPySpace = true ∧
      get_output_filename none (PromptOutcome.entered " \t\x1C\u0085\u00A0\u2003\u3000") =
        Except.ok "model-merged.safetensors") ∧
    (pystrip "\u00A0foo\u00A0" ≠ "" ∧
      get_output_filename none (PromptOutcome.entered "\u00A0foo\u00A0") =
        Except.ok (ensureSafetensors (pystrip "\u00A0foo\u00A0"))) :=
  ⟨⟨by decide, C9_prompt_whitespace_stripping.1 " \t\x1C\u0085\u00A0\u2003\u3000" (by decide)⟩,
   ⟨by decide, C9_prompt_whitespace_stripping.2 "\u00A0foo\u00A0" (by decide)⟩⟩

/-- C10: an index whose weight map is empty is accepted by the index loader
(it is not the missing-field error), produces an empty shard plan and — with
no shard opened at all, as the empty log shows — an empty Merged Set, after
which the run exits fatally with code 1 via the empty-result check, never
reaching the write step. -/
theorem C10_empty_weight_map (fs : String → Option (Shard T))
    (resolve : String → String) (outputArg : Option String) (pr : PromptOutcome)
    (toAbs : String → String) :
    load_index (some ([] : WeightMap)) = Except.ok [] ∧
    group_keys_by_shard [] resolve = [] ∧
    load_tensors fs (group_keys_by_shard [] resolve) = Except.ok ([], []) ∧
    (mainAfterPlan fs (group_keys_by_shard [] resolve) outputArg pr toAbs).1 =
      RunOutcome.exited 1 ∧
    ∀ (p : String) (ts : List (String × T)),
      (mainAfterPlan fs (group_keys_by_shard [] resolve) outputArg pr toAbs).1 ≠
        RunOutcome.wrote p ts := by
  refine ⟨rfl, rfl, rfl, rfl, ?_⟩
  intro p ts hw
  rw [show (mainAfterPlan fs (group_keys_by_shard [] resolve) outputArg pr toAbs).1 =
    RunOutcome.exited 1 from rfl] at hw
  cases hw

end MergeSafetensors
